import Mathlib

/-!
Shallow embedding of the hosts-filter merge/dedup engine (src/src/model.py):
entry parsing, entry rendering, the dedup merge, and the preview stats
estimator, together with theorems settling the specification claims.

Python strings are modelled as Lean `String`/`List Char`; Python `set`s of
strings as `List String` used only through membership; the manager object as
an explicit record threaded through the stateful operations.
-/

/-- Python `str.isspace` / the whitespace set used by `str.strip()` and
`str.split()` with no arguments. -/
def pyIsSpace (c : Char) : Bool :=
  c = ' ' || c = '\t' || c = '\n' || c = '\r' || c = '\x0b' || c = '\x0c' ||
  c = '\x1c' || c = '\x1d' || c = '\x1e' || c = '\x1f' || c = '\x85' || c = '\xa0' ||
  c = ' ' || (0x2000 ≤ c.toNat && c.toNat ≤ 0x200a) ||
  c = ' ' || c = ' ' || c = ' ' || c = ' ' || c = '　'

/-- The line-boundary characters of Python `str.splitlines()`. -/
def pyIsLineBreak (c : Char) : Bool :=
  c = '\n' || c = '\r' || c = '\x0b' || c = '\x0c' ||
  c = '\x1c' || c = '\x1d' || c = '\x1e' || c = '\x85' || c = ' ' || c = ' '

/-- Python `str.strip()` on a character list. -/
def pyStripList (l : List Char) : List Char :=
  ((l.dropWhile pyIsSpace).reverse.dropWhile pyIsSpace).reverse

/-- Python `str.strip()`. -/
def pyStrip (s : String) : String := ⟨pyStripList s.data⟩

/-- Worker for `pySplitlines`; `acc` holds the current line reversed. -/
def pySplitlinesAux : List Char → List Char → List (List Char)
  | [], acc => if acc.isEmpty then [] else [acc.reverse]
  | c :: rest, acc =>
    if pyIsLineBreak c then
      acc.reverse ::
        match rest with
        | [] => []
        | c2 :: rest2 =>
          if c = '\r' && c2 = '\n' then pySplitlinesAux rest2 []
          else pySplitlinesAux (c2 :: rest2) []
    else pySplitlinesAux rest (c :: acc)

/-- Python `str.splitlines()`: split at every line boundary, treating
a \r\n pair as a single boundary, with no empty final line. -/
def pySplitlines (l : List Char) : List (List Char) := pySplitlinesAux l []

/-- Worker for `pySplitWs`; `acc` holds the current token reversed. -/
def pySplitWsAux : List Char → List Char → List (List Char)
  | [], acc => if acc.isEmpty then [] else [acc.reverse]
  | c :: rest, acc =>
    if pyIsSpace c then
      if acc.isEmpty then pySplitWsAux rest []
      else acc.reverse :: pySplitWsAux rest []
    else pySplitWsAux rest (c :: acc)

/-- Python `str.split()` with no arguments: split on runs of whitespace,
producing no empty tokens. -/
def pySplitWs (l : List Char) : List (List Char) := pySplitWsAux l []

/-- Python `str.split("#", 1)`: the part before the first '#', and the part
after it when a '#' occurs. -/
def pySplitHash1 : List Char → List Char × Option (List Char)
  | [] => ([], none)
  | c :: rest =>
    if c = '#' then ([], some rest)
    else
      let r := pySplitHash1 rest
      (c :: r.1, r.2)

/-- Python `f"{s:<15}"`-style left justification with spaces. -/
def pyLjust (s : String) (w : Nat) : String :=
  ⟨s.data ++ List.replicate (w - s.length) ' '⟩

/-- Python `' '.join` on character lists. -/
def joinData : List (List Char) → List Char
  | [] => []
  | [d] => d
  | d :: rest => d ++ ' ' :: joinData rest

/-- Python `' '.join(domains)`. -/
def joinSpace (ds : List String) : String := ⟨joinData (ds.map String.data)⟩

/-- Python `"\n".join(lines)`. -/
def joinNl : List String → String
  | [] => ""
  | [l] => l
  | l :: rest => l ++ "\n" ++ joinNl rest

/-- Model of the HostEntry dataclass of model.py. -/
structure HostEntry where
  ip : String
  domains : List String
  comment : Option String := none
  source : String := "System"
  enabled : Bool := true
deriving DecidableEq

/-- Rendering rule HostEntry.to_line: a disabled entry renders fully commented; an enabled
one renders the ip left-justified to 15 columns, the domains joined by single
spaces, and a ` # comment` suffix when the comment is truthy (non-empty). -/
def HostEntry.to_line (e : HostEntry) : String :=
  if e.enabled then
    let line := pyLjust e.ip 15 ++ " " ++ joinSpace e.domains
    match e.comment with
    | some c => if c = "" then line else line ++ " # " ++ c
    | none => line
  else "# " ++ e.ip ++ " " ++ joinSpace e.domains

/-- One iteration of the `parse_content` loop on a single raw line. -/
def parseLine (source_name : String) (rawLine : List Char) : Option HostEntry :=
  let line := pyStripList rawLine
  if line.isEmpty || line.head? = some '#' then none
  else
    let parts := pySplitHash1 line
    let comment := parts.2.map fun r => String.mk (pyStripList r)
    let clean_line := pyStripList parts.1
    if clean_line.isEmpty then none
    else
      match pySplitWs clean_line with
      | tok1 :: tok2 :: rest =>
        some { ip := ⟨tok1⟩, domains := (tok2 :: rest).map String.mk,
               comment := comment, source := source_name }
      | _ => none

/-- Model of HostsManager.parse_content. -/
def parse_content (content : String) (source_name : String) : List HostEntry :=
  (pySplitlines content.data).filterMap (parseLine source_name)

/-- The HostsManager state: its fields, with the Python dict
`remote_entries` as an association list, the sets as membership-only lists,
`config` reduced to the single key the engine uses, and the
`last_whitelisted_count` attribute that `merge_entries` creates
(`none` models the attribute being absent before any merge). -/
structure HostsManager where
  system_hosts_path : String := "/etc/hosts"
  system_entries : List HostEntry := []
  remote_entries : List (String × List HostEntry) := []
  managed_domains : List String := []
  whitelist : List String := []
  config_selected_sources : List String := []
  last_whitelisted_count : Option Nat := none
deriving DecidableEq

/-- Lookup modelling `source in self.remote_entries` / `self.remote_entries[source]`. -/
def HostsManager.lookupSource (m : HostsManager) (s : String) :
    Option (List HostEntry) :=
  (m.remote_entries.find? fun p => p.1 == s).map Prod.snd

/-- The seed of the seen-domain set: every domain of every system entry. -/
def HostsManager.systemDomains (m : HostsManager) : List String :=
  (m.system_entries.map fun e => e.domains).flatten

/-- Inner domain loop of `merge_entries`: returns the kept `new_domains`
and the number of whitelist skips. The seen set is NOT updated inside this
loop (it is updated only after the whole entry, as in the source). -/
def filterDomains (seen wl : List String) : List String → List String × Nat
  | [] => ([], 0)
  | d :: rest =>
    if d ∈ seen then filterDomains seen wl rest
    else if d ∈ wl then
      let r := filterDomains seen wl rest
      (r.1, r.2 + 1)
    else
      let r := filterDomains seen wl rest
      (d :: r.1, r.2)

/-- Per-entry loop of `merge_entries` for one source: emits the surviving
domain list of each entry, threading the seen set (updated after each entry)
and the whitelist-skip counter. -/
def processEntries (wl : List String) : List HostEntry → List String → Nat →
    List (List String) × List String × Nat
  | [], seen, cnt => ([], seen, cnt)
  | e :: rest, seen, cnt =>
    let r := filterDomains seen wl e.domains
    if r.1.isEmpty then processEntries wl rest seen (cnt + r.2)
    else
      let r2 := processEntries wl rest (seen ++ r.1) (cnt + r.2)
      (r.1 :: r2.1, r2.2)

/-- Outer source loop of `merge_entries`: selected sources in order, absent
sources skipped, returning per-source emitted blocks and the final
whitelist-skip counter. -/
def processSources (m : HostsManager) : List String → List String → Nat →
    List (String × List (List String)) × Nat
  | [], _, cnt => ([], cnt)
  | src :: rest, seen, cnt =>
    match m.lookupSource src with
    | none => processSources m rest seen cnt
    | some entries =>
      let r := processEntries m.whitelist entries seen cnt
      let r2 := processSources m rest r.2.1 r.2.2
      ((src, r.1) :: r2.1, r2.2)

/-- The generated line for an entry's surviving domains:
`HostEntry(ip="0.0.0.0", domains=new_domains, source=source).to_line()`. -/
def blockLine (src : String) (nd : List String) : String :=
  HostEntry.to_line { ip := "0.0.0.0", domains := nd, comment := none,
                      source := src, enabled := true }

/-- The lines `merge_entries` appends for one processed source:
the `# Source:` header, one block line per emitted entry, a blank line. -/
def sourceSection (p : String × List (List String)) : List String :=
  ("# Source: " ++ p.1) :: p.2.map (blockLine p.1) ++ [""]

/-- The fixed lines `merge_entries` emits before any source. -/
def mergeHeader (m : HostsManager) : List String :=
  "### SYSTEM ENTRIES (PRESERVED) ###" :: m.system_entries.map HostEntry.to_line ++
    ["", "### BLOCKLIST ENTRIES (GENERATED) ###", "# Generated by HostsFilter"]

/-- Model of HostsManager.merge_entries: returns the manager state after the call
(the call sets the `last_whitelisted_count` attribute) and the generated
file content. -/
def HostsManager.merge_entries (m : HostsManager) (selected_sources : List String) :
    HostsManager × String :=
  let r := processSources m selected_sources m.systemDomains 0
  ({ m with last_whitelisted_count := some r.2 },
   joinNl (mergeHeader m ++ (r.1.map sourceSection).flatten))

/-- The per-source blocks of domains emitted into the generated section. -/
def HostsManager.generatedBlocks (m : HostsManager) (sel : List String) :
    List (String × List (List String)) :=
  (processSources m sel m.systemDomains 0).1

/-- Every domain occurrence in the generated blocklist section of
`merge_entries`' output, in emission order. -/
def HostsManager.generatedDomains (m : HostsManager) (sel : List String) :
    List String :=
  ((m.generatedBlocks sel).map fun p => p.2.flatten).flatten

/-- The result dict of preview_stats. -/
structure PreviewStats where
  system_lines : Nat
  new_blocked_domains : Nat
  whitelisted_skipped : Nat
deriving DecidableEq

/-- Inner domain loop of `preview_stats`: unlike `merge_entries`, the seen
set is extended immediately after each kept domain. -/
def previewDomains (wl : List String) : List String → List String → Nat → Nat →
    List String × Nat × Nat
  | [], seen, blocked, wlc => (seen, blocked, wlc)
  | d :: rest, seen, blocked, wlc =>
    if d ∈ seen then previewDomains wl rest seen blocked wlc
    else if d ∈ wl then previewDomains wl rest seen blocked (wlc + 1)
    else previewDomains wl rest (seen ++ [d]) (blocked + 1) wlc

/-- Per-entry loop of `preview_stats` for one source. -/
def previewEntries (wl : List String) : List HostEntry → List String → Nat → Nat →
    List String × Nat × Nat
  | [], seen, blocked, wlc => (seen, blocked, wlc)
  | e :: rest, seen, blocked, wlc =>
    let r := previewDomains wl e.domains seen blocked wlc
    previewEntries wl rest r.1 r.2.1 r.2.2

/-- Outer source loop of `preview_stats`. -/
def previewSources (m : HostsManager) : List String → List String → Nat → Nat →
    List String × Nat × Nat
  | [], seen, blocked, wlc => (seen, blocked, wlc)
  | src :: rest, seen, blocked, wlc =>
    match m.lookupSource src with
    | none => previewSources m rest seen blocked wlc
    | some entries =>
      let r := previewEntries m.whitelist entries seen blocked wlc
      previewSources m rest r.1 r.2.1 r.2.2

/-- Model of HostsManager.preview_stats. -/
def HostsManager.preview_stats (m : HostsManager) (sel : List String) :
    PreviewStats :=
  let r := previewSources m sel m.systemDomains 0 0
  { system_lines := m.system_entries.length,
    new_blocked_domains := r.2.1, whitelisted_skipped := r.2.2 }

/-! ### Character-class and string-primitive lemmas -/

theorem pyIsSpace_of_lineBreak {c : Char} (h : pyIsLineBreak c = true) :
    pyIsSpace c = true := by
  simp only [pyIsLineBreak, Bool.or_eq_true, decide_eq_true_eq] at h
  rcases h with ((((((((h | h) | h) | h) | h) | h) | h) | h) | h) | h <;>
    subst h <;> decide

theorem not_lineBreak_of_not_space {c : Char} (h : pyIsSpace c = false) :
    pyIsLineBreak c = false := by
  cases hlb : pyIsLineBreak c with
  | false => rfl
  | true => rw [pyIsSpace_of_lineBreak hlb] at h; cases h

theorem pyStripList_sandwich (X S : List Char) (a b : Char)
    (hhead : X.head? = some a) (ha : pyIsSpace a = false)
    (hlast : X.getLast? = some b) (hb : pyIsSpace b = false)
    (hS : ∀ c ∈ S, pyIsSpace c = true) :
    pyStripList (X ++ S) = X := by
  match X, hhead with
  | a :: X2, rfl =>
    have h1 : (a :: X2 ++ S).dropWhile pyIsSpace = a :: X2 ++ S := by
      rw [List.cons_append]
      exact List.dropWhile_cons_of_neg (by simp [ha])
    have h2 : (a :: X2 ++ S).reverse = S.reverse ++ (a :: X2).reverse := by
      rw [List.reverse_append]
    have h3 : (S.reverse ++ (a :: X2).reverse).dropWhile pyIsSpace
        = (a :: X2).reverse.dropWhile pyIsSpace :=
      List.dropWhile_append_of_pos (by intro x hx; simpa using hS x (List.mem_reverse.mp hx))
    have hrevhead : (a :: X2).reverse.head? = some b := by
      rw [List.head?_reverse]; exact hlast
    have h4 : (a :: X2).reverse.dropWhile pyIsSpace = (a :: X2).reverse := by
      match hrev : (a :: X2).reverse, hrevhead with
      | b :: t, rfl => exact List.dropWhile_cons_of_neg (by simp [hb])
    unfold pyStripList
    rw [h1, h2, h3, h4, List.reverse_reverse]

theorem pyStripList_eq_self (X : List Char) (a b : Char)
    (hhead : X.head? = some a) (ha : pyIsSpace a = false)
    (hlast : X.getLast? = some b) (hb : pyIsSpace b = false) :
    pyStripList X = X := by
  have := pyStripList_sandwich X [] a b hhead ha hlast hb (by intro c hc; cases hc)
  simpa using this

theorem pyStripList_head (c : Char) (t : List Char) (hc : pyIsSpace c = false) :
    ∃ t2, pyStripList (c :: t) = c :: t2 := by
  unfold pyStripList
  rw [List.dropWhile_cons_of_neg (by simp [hc])]
  rw [show (c :: t).reverse = t.reverse ++ [c] by simp]
  rw [List.dropWhile_append]
  by_cases he : (t.reverse.dropWhile pyIsSpace).isEmpty
  · refine ⟨[], ?_⟩
    rw [if_pos he]
    rw [List.dropWhile_cons_of_neg (by simp [hc])]
    simp
  · refine ⟨(t.reverse.dropWhile pyIsSpace).reverse, ?_⟩
    rw [if_neg he]
    simp

theorem pySplitlinesAux_single (l : List Char) :
    ∀ acc, (∀ c ∈ l, pyIsLineBreak c = false) → (acc ≠ [] ∨ l ≠ []) →
      pySplitlinesAux l acc = [acc.reverse ++ l] := by
  induction l with
  | nil =>
    intro acc _ hne
    have hacc : acc ≠ [] := by
      rcases hne with h | h
      · exact h
      · cases h rfl
    simp [pySplitlinesAux, List.isEmpty_iff, hacc]
  | cons c rest ih =>
    intro acc h _
    have hc : pyIsLineBreak c = false := h c (by simp)
    rw [pySplitlinesAux.eq_def]
    simp only []
    rw [if_neg (by simp [hc])]
    rw [ih (c :: acc) (fun x hx => h x (by simp [hx])) (Or.inl (by simp))]
    simp

theorem pySplitlines_single (l : List Char) (hne : l ≠ [])
    (h : ∀ c ∈ l, pyIsLineBreak c = false) : pySplitlines l = [l] := by
  have := pySplitlinesAux_single l [] h (Or.inr hne)
  simpa [pySplitlines] using this

/-! ### Tokenizer lemmas -/

theorem joinData_cons_cons (t t2 : List Char) (ts : List (List Char)) :
    joinData (t :: t2 :: ts) = t ++ ' ' :: joinData (t2 :: ts) := rfl

theorem pySplitWsAux_token (t : List Char) (h : ∀ c ∈ t, pyIsSpace c = false) :
    ∀ rest acc, pySplitWsAux (t ++ rest) acc = pySplitWsAux rest (t.reverse ++ acc) := by
  induction t with
  | nil => intro rest acc; simp
  | cons c t2 ih =>
    intro rest acc
    have hc : pyIsSpace c = false := h c (by simp)
    rw [List.cons_append, pySplitWsAux, if_neg (by simp [hc])]
    rw [ih (fun x hx => h x (by simp [hx])) rest (c :: acc)]
    simp

theorem pySplitWsAux_spaces (S : List Char) (h : ∀ c ∈ S, pyIsSpace c = true) :
    ∀ rest, pySplitWsAux (S ++ rest) [] = pySplitWsAux rest [] := by
  induction S with
  | nil => intro rest; simp
  | cons c S2 ih =>
    intro rest
    have hc : pyIsSpace c = true := h c (by simp)
    rw [List.cons_append, pySplitWsAux, if_pos (by simp [hc])]
    simp only [List.isEmpty_nil, if_pos]
    exact ih (fun x hx => h x (by simp [hx])) rest

theorem pySplitWsAux_flush (c : Char) (hc : pyIsSpace c = true)
    (acc : List Char) (hacc : acc ≠ []) (rest : List Char) :
    pySplitWsAux (c :: rest) acc = acc.reverse :: pySplitWsAux rest [] := by
  rw [pySplitWsAux, if_pos (by simp [hc])]
  simp [List.isEmpty_iff, hacc]

theorem pySplitWs_joinData (ts : List (List Char))
    (h : ∀ t ∈ ts, t ≠ [] ∧ ∀ c ∈ t, pyIsSpace c = false) :
    pySplitWs (joinData ts) = ts := by
  induction ts with
  | nil => simp [pySplitWs, joinData, pySplitWsAux]
  | cons t ts2 ih =>
    obtain ⟨htne, htns⟩ := h t (by simp)
    cases ts2 with
    | nil =>
      show pySplitWsAux (joinData [t]) [] = [t]
      rw [joinData]
      have := pySplitWsAux_token t htns [] []
      rw [List.append_nil] at this
      rw [this, pySplitWsAux]
      simp [List.isEmpty_iff, htne]
    | cons t2 ts3 =>
      show pySplitWsAux (joinData (t :: t2 :: ts3)) [] = t :: t2 :: ts3
      rw [joinData_cons_cons]
      rw [pySplitWsAux_token t htns (' ' :: joinData (t2 :: ts3)) []]
      rw [List.append_nil]
      rw [pySplitWsAux_flush ' ' (by decide) t.reverse (by simp [htne]) _]
      rw [List.reverse_reverse]
      exact congrArg (t :: ·) (ih (fun x hx => h x (by simp [hx])))

theorem pySplitWs_ip_join (ip S : List Char) (ds : List (List Char))
    (hip1 : ip ≠ []) (hip2 : ∀ c ∈ ip, pyIsSpace c = false)
    (hS1 : S ≠ []) (hS2 : ∀ c ∈ S, pyIsSpace c = true)
    (hds : ∀ t ∈ ds, t ≠ [] ∧ ∀ c ∈ t, pyIsSpace c = false) :
    pySplitWs (ip ++ S ++ joinData ds) = ip :: ds := by
  show pySplitWsAux (ip ++ S ++ joinData ds) [] = ip :: ds
  rw [List.append_assoc, pySplitWsAux_token ip hip2 (S ++ joinData ds) []]
  rw [List.append_nil]
  match S, hS1 with
  | s :: S2, _ =>
    rw [List.cons_append]
    rw [pySplitWsAux_flush s (hS2 s (by simp)) ip.reverse (by simp [hip1]) _]
    rw [List.reverse_reverse]
    rw [pySplitWsAux_spaces S2 (fun x hx => hS2 x (by simp [hx])) (joinData ds)]
    exact congrArg (ip :: ·) (pySplitWs_joinData ds hds)

theorem pySplitWsAux_tokens_ne_nil : ∀ (l acc : List Char) (t : List Char),
    t ∈ pySplitWsAux l acc → t ≠ [] := by
  intro l
  induction l with
  | nil =>
    intro acc t ht
    rw [pySplitWsAux] at ht
    by_cases hacc : acc.isEmpty
    · rw [if_pos hacc] at ht; cases ht
    · rw [if_neg hacc] at ht
      rw [List.mem_singleton] at ht
      subst ht
      simp [List.isEmpty_iff] at hacc
      simp [hacc]
  | cons c rest ih =>
    intro acc t ht
    rw [pySplitWsAux] at ht
    by_cases hc : pyIsSpace c
    · rw [if_pos hc] at ht
      by_cases hacc : acc.isEmpty
      · rw [if_pos hacc] at ht; exact ih [] t ht
      · rw [if_neg hacc] at ht
        rcases List.mem_cons.mp ht with h1 | h2
        · subst h1
          simp [List.isEmpty_iff] at hacc
          simp [hacc]
        · exact ih [] t h2
    · rw [if_neg hc] at ht
      exact ih (c :: acc) t ht

/-! ### Split-on-hash lemmas -/

theorem pySplitHash1_not_mem (l : List Char) (h : '#' ∉ l) :
    pySplitHash1 l = (l, none) := by
  induction l with
  | nil => rfl
  | cons c rest ih =>
    have hc : c ≠ '#' := by rintro rfl; exact h (by simp)
    rw [pySplitHash1]
    simp only [if_neg hc]
    rw [ih (fun hm => h (by simp [hm]))]

theorem pySplitHash1_found (l1 l2 : List Char) (h : '#' ∉ l1) :
    pySplitHash1 (l1 ++ '#' :: l2) = (l1, some l2) := by
  induction l1 with
  | nil => simp [pySplitHash1]
  | cons c rest ih =>
    have hc : c ≠ '#' := by rintro rfl; exact h (by simp)
    rw [List.cons_append, pySplitHash1]
    simp only [if_neg hc]
    rw [ih (fun hm => h (by simp [hm]))]

/-! ### joinData lemmas -/

theorem joinData_ne_nil (t : List Char) (ts : List (List Char)) (ht : t ≠ []) :
    joinData (t :: ts) ≠ [] := by
  cases ts with
  | nil => simpa [joinData] using ht
  | cons t2 ts2 =>
    rw [joinData_cons_cons]
    simp [ht]

theorem joinData_mem (ts : List (List Char)) (c : Char) (hc : c ∈ joinData ts) :
    (∃ t ∈ ts, c ∈ t) ∨ c = ' ' := by
  induction ts with
  | nil => cases hc
  | cons t ts2 ih =>
    cases ts2 with
    | nil =>
      rw [joinData] at hc
      exact Or.inl ⟨t, by simp, hc⟩
    | cons t2 ts3 =>
      rw [joinData_cons_cons] at hc
      rcases List.mem_append.mp hc with h1 | h2
      · exact Or.inl ⟨t, by simp, h1⟩
      · rcases List.mem_cons.mp h2 with h3 | h4
        · exact Or.inr h3
        · rcases ih h4 with ⟨t3, ht3, hct3⟩ | h5
          · exact Or.inl ⟨t3, by simp [ht3], hct3⟩
          · exact Or.inr h5

theorem joinData_getLast (ts : List (List Char))
    (h : ∀ t ∈ ts, t ≠ [] ∧ ∀ c ∈ t, pyIsSpace c = false) (hne : ts ≠ []) :
    ∃ b, (joinData ts).getLast? = some b ∧ pyIsSpace b = false := by
  induction ts with
  | nil => cases hne rfl
  | cons t ts2 ih =>
    obtain ⟨htne, htns⟩ := h t (by simp)
    cases ts2 with
    | nil =>
      refine ⟨t.getLast htne, ?_, htns _ (List.getLast_mem htne)⟩
      rw [joinData]
      exact List.getLast?_eq_getLast t htne
    | cons t2 ts3 =>
      obtain ⟨b, hb1, hb2⟩ := ih (fun x hx => h x (by simp [hx])) (by simp)
      refine ⟨b, ?_, hb2⟩
      rw [joinData_cons_cons]
      rw [List.getLast?_append_of_ne_nil t (by simp)]
      rw [show (' ' :: joinData (t2 :: ts3)) = [' '] ++ joinData (t2 :: ts3) by rfl]
      rw [List.getLast?_append_of_ne_nil [' ']
        (joinData_ne_nil t2 ts3 (h t2 (by simp)).1)]
      exact hb1

/-! ### Parsing a rendered enabled line -/

theorem hash_not_space : pyIsSpace '#' = false := by decide

theorem ne_hash_of_space {c : Char} (h : pyIsSpace c = true) : c ≠ '#' := by
  rintro rfl
  rw [hash_not_space] at h
  cases h

theorem pyStripList_space_cons (cd : List Char) (a b : Char)
    (hhead : cd.head? = some a) (ha : pyIsSpace a = false)
    (hlast : cd.getLast? = some b) (hb : pyIsSpace b = false) :
    pyStripList (' ' :: cd) = cd := by
  have h1 : (' ' :: cd).dropWhile pyIsSpace = cd.dropWhile pyIsSpace :=
    List.dropWhile_cons_of_pos (by decide)
  have h2 : pyStripList cd = cd := pyStripList_eq_self cd a b hhead ha hlast hb
  unfold pyStripList at h2 ⊢
  rw [h1]
  exact h2

theorem parseLine_rendered_nocomment (src : String) (ip S : List Char)
    (ds : List (List Char))
    (hip1 : ip ≠ []) (hip2 : ∀ c ∈ ip, pyIsSpace c = false ∧ c ≠ '#')
    (hS1 : S ≠ []) (hS2 : ∀ c ∈ S, pyIsSpace c = true)
    (hds1 : ds ≠ [])
    (hds2 : ∀ t ∈ ds, t ≠ [] ∧ ∀ c ∈ t, pyIsSpace c = false ∧ c ≠ '#') :
    parseLine src (ip ++ S ++ joinData ds) =
      some { ip := ⟨ip⟩, domains := ds.map String.mk, comment := none,
             source := src, enabled := true } := by
  match ip, hip1 with
  | a :: ip2, _ =>
  have ha : pyIsSpace a = false := (hip2 a (by simp)).1
  have hah : a ≠ '#' := (hip2 a (by simp)).2
  have hjoin_ne : joinData ds ≠ [] := by
    match ds, hds1 with
    | t :: ds2, _ => exact joinData_ne_nil t ds2 (hds2 t (by simp)).1
  obtain ⟨b, hb1, hb2⟩ := joinData_getLast ds
    (fun t ht => ⟨(hds2 t ht).1, fun c hc => ((hds2 t ht).2 c hc).1⟩) hds1
  set L := (a :: ip2) ++ S ++ joinData ds with hL
  have hhead : L.head? = some a := by rw [hL]; simp
  have hlast : L.getLast? = some b := by
    rw [hL]
    rw [List.getLast?_append_of_ne_nil _ hjoin_ne]
    exact hb1
  have hstrip : pyStripList L = L := pyStripList_eq_self L a b hhead ha hlast hb2
  have hLne : L ≠ [] := by rw [hL]; simp
  have hnohash : '#' ∉ L := by
    intro hm
    rw [hL] at hm
    rcases List.mem_append.mp hm with h1 | h2
    · rcases List.mem_append.mp h1 with h3 | h4
      · exact (hip2 '#' h3).2 rfl
      · exact ne_hash_of_space (hS2 '#' h4) rfl
    · rcases joinData_mem ds '#' h2 with ⟨t, ht, hct⟩ | h5
      · exact ((hds2 t ht).2 '#' hct).2 rfl
      · cases h5
  have hsplit : pySplitHash1 L = (L, none) := pySplitHash1_not_mem L hnohash
  have htoks : pySplitWs L = (a :: ip2) :: ds := by
    rw [hL]
    exact pySplitWs_ip_join (a :: ip2) S ds (by simp)
      (fun c hc => (hip2 c hc).1) hS1 hS2
      (fun t ht => ⟨(hds2 t ht).1, fun c hc => ((hds2 t ht).2 c hc).1⟩)
  unfold parseLine
  simp only [hstrip, hsplit, htoks]
  rw [if_neg (by simp [hhead, hah, hLne] )]
  rw [if_neg (by rw [hL]; simp )]
  match ds, hds1 with
  | d :: ds2, _ => rfl

theorem parseLine_rendered_comment (src : String) (ip S : List Char)
    (ds : List (List Char)) (cd : List Char) (ca cb : Char)
    (hip1 : ip ≠ []) (hip2 : ∀ c ∈ ip, pyIsSpace c = false ∧ c ≠ '#')
    (hS1 : S ≠ []) (hS2 : ∀ c ∈ S, pyIsSpace c = true)
    (hds1 : ds ≠ [])
    (hds2 : ∀ t ∈ ds, t ≠ [] ∧ ∀ c ∈ t, pyIsSpace c = false ∧ c ≠ '#')
    (hchead : cd.head? = some ca) (hca : pyIsSpace ca = false)
    (hclast : cd.getLast? = some cb) (hcb : pyIsSpace cb = false) :
    parseLine src (ip ++ S ++ joinData ds ++ [' '] ++ '#' :: ' ' :: cd) =
      some { ip := ⟨ip⟩, domains := ds.map String.mk, comment := some ⟨cd⟩,
             source := src, enabled := true } := by
  match ip, hip1 with
  | a :: ip2, _ =>
  have ha : pyIsSpace a = false := (hip2 a (by simp)).1
  have hah : a ≠ '#' := (hip2 a (by simp)).2
  have hjoin_ne : joinData ds ≠ [] := by
    match ds, hds1 with
    | t :: ds2, _ => exact joinData_ne_nil t ds2 (hds2 t (by simp)).1
  obtain ⟨b, hb1, hb2⟩ := joinData_getLast ds
    (fun t ht => ⟨(hds2 t ht).1, fun c hc => ((hds2 t ht).2 c hc).1⟩) hds1
  have hcd_ne : cd ≠ [] := by
    rintro rfl; cases hchead
  set X := (a :: ip2) ++ S ++ joinData ds with hX
  set L := X ++ [' '] ++ '#' :: ' ' :: cd with hL
  have hhead : L.head? = some a := by rw [hL, hX]; simp
  have hlast : L.getLast? = some cb := by
    rw [hL]
    rw [List.getLast?_append_of_ne_nil _ (by simp)]
    rw [show ('#' :: ' ' :: cd) = ['#', ' '] ++ cd by rfl]
    rw [List.getLast?_append_of_ne_nil _ hcd_ne]
    exact hclast
  have hstrip : pyStripList L = L := pyStripList_eq_self L a cb hhead ha hlast hcb
  have hLne : L ≠ [] := by rw [hL]; simp
  have hnohashX : '#' ∉ X ++ [' '] := by
    intro hm
    rcases List.mem_append.mp hm with h0 | h0'
    · rw [hX] at h0
      rcases List.mem_append.mp h0 with h1 | h2
      · rcases List.mem_append.mp h1 with h3 | h4
        · exact (hip2 '#' h3).2 rfl
        · exact ne_hash_of_space (hS2 '#' h4) rfl
      · rcases joinData_mem ds '#' h2 with ⟨t, ht, hct⟩ | h5
        · exact ((hds2 t ht).2 '#' hct).2 rfl
        · cases h5
    · simp at h0'
  have hsplit : pySplitHash1 L = (X ++ [' '], some (' ' :: cd)) := by
    rw [hL]
    rw [show X ++ [' '] ++ '#' :: ' ' :: cd = (X ++ [' ']) ++ '#' :: (' ' :: cd) by simp]
    exact pySplitHash1_found (X ++ [' ']) (' ' :: cd) hnohashX
  have hcleanstrip : pyStripList (X ++ [' ']) = X := by
    apply pyStripList_sandwich X [' '] a b
    · rw [hX]; simp
    · exact ha
    · rw [hX]
      rw [List.getLast?_append_of_ne_nil _ hjoin_ne]
      exact hb1
    · exact hb2
    · intro c hc; simp at hc; subst hc; decide
  have hcomm : pyStripList (' ' :: cd) = cd :=
    pyStripList_space_cons cd ca cb hchead hca hclast hcb
  have htoks : pySplitWs X = (a :: ip2) :: ds := by
    rw [hX]
    exact pySplitWs_ip_join (a :: ip2) S ds (by simp)
      (fun c hc => (hip2 c hc).1) hS1 hS2
      (fun t ht => ⟨(hds2 t ht).1, fun c hc => ((hds2 t ht).2 c hc).1⟩)
  have hXne : X ≠ [] := by rw [hX]; simp
  unfold parseLine
  simp only [hstrip, hsplit, hcleanstrip, hcomm, htoks]
  rw [if_neg (by simp [hhead, hah, hLne] )]
  rw [if_neg (by rw [hX]; simp )]
  match ds, hds1 with
  | d :: ds2, _ => simp [hcomm]

/-! ### Rendered-line data computations -/

theorem space_str_data : (" " : String).data = [' '] := rfl

theorem joinSpace_data (ds : List String) :
    (joinSpace ds).data = joinData (ds.map String.data) := rfl

theorem hashspace_str_data : (" # " : String).data = [' ', '#', ' '] := rfl

theorem map_mk_map_data (ds : List String) :
    (ds.map String.data).map String.mk = ds := by
  induction ds with
  | nil => rfl
  | cons d ds ih => simp only [List.map_cons, ih]

theorem to_line_data_nocomment (e : HostEntry) (hen : e.enabled = true)
    (hcm : e.comment = none) :
    e.to_line.data = e.ip.data ++
      (List.replicate (15 - e.ip.length) ' ' ++ [' ']) ++
      joinData (e.domains.map String.data) := by
  unfold HostEntry.to_line
  rw [if_pos (by simp [hen]), hcm]
  simp only [String.data_append, pyLjust, space_str_data, joinSpace_data,
    List.append_assoc]

theorem to_line_data_comment (e : HostEntry) (c : String) (hen : e.enabled = true)
    (hcm : e.comment = some c) (hcne : c ≠ "") :
    e.to_line.data = e.ip.data ++
      (List.replicate (15 - e.ip.length) ' ' ++ [' ']) ++
      joinData (e.domains.map String.data) ++ [' '] ++ '#' :: ' ' :: c.data := by
  unfold HostEntry.to_line
  rw [if_pos (by simp [hen]), hcm]
  simp only [if_neg hcne]
  simp only [String.data_append, pyLjust, space_str_data, hashspace_str_data,
    joinSpace_data, List.append_assoc, List.cons_append, List.nil_append]

theorem to_line_data_disabled (e : HostEntry) (hen : e.enabled = false) :
    e.to_line.data = '#' :: ' ' :: (e.ip.data ++ [' '] ++
      joinData (e.domains.map String.data)) := by
  unfold HostEntry.to_line
  rw [if_neg (by simp [hen])]
  simp only [String.data_append, space_str_data, joinSpace_data,
    List.append_assoc]
  rfl

/-- Claim C5: for every entry with enabled = true whose rendered line loses no
comment (address and domains are non-empty '#'-free whitespace-free tokens,
the domain list is non-empty, and the comment, when present, is non-empty,
has no surrounding whitespace and contains no line-break character),
parsing the rendered line yields exactly one entry with the same address,
the same domain sequence, and the same comment. -/
theorem render_parse_round_trip (e : HostEntry) (src : String)
    (hen : e.enabled = true)
    (hip : e.ip.data ≠ [] ∧ ∀ c ∈ e.ip.data, pyIsSpace c = false ∧ c ≠ '#')
    (hdne : e.domains ≠ [])
    (hds : ∀ d ∈ e.domains, d.data ≠ [] ∧ ∀ c ∈ d.data, pyIsSpace c = false ∧ c ≠ '#')
    (hc : e.comment = none ∨ ∃ c, e.comment = some c ∧ c.data ≠ [] ∧
        (∀ a, c.data.head? = some a → pyIsSpace a = false) ∧
        (∀ a, c.data.getLast? = some a → pyIsSpace a = false) ∧
        (∀ a ∈ c.data, pyIsLineBreak a = false)) :
    parse_content e.to_line src =
      [{ ip := e.ip, domains := e.domains, comment := e.comment,
         source := src, enabled := true }] := by
  obtain ⟨hip1, hip2⟩ := hip
  have hdsd : ∀ t ∈ e.domains.map String.data,
      t ≠ [] ∧ ∀ c ∈ t, pyIsSpace c = false ∧ c ≠ '#' := by
    intro t ht
    rcases List.mem_map.mp ht with ⟨d, hd, rfl⟩
    exact hds d hd
  have hdsd1 : e.domains.map String.data ≠ [] := by
    simpa using hdne
  have hS1 : (List.replicate (15 - e.ip.length) ' ' ++ [' '] : List Char) ≠ [] := by
    simp
  have hS2 : ∀ c ∈ (List.replicate (15 - e.ip.length) ' ' ++ [' '] : List Char),
      pyIsSpace c = true := by
    intro c hcm
    rcases List.mem_append.mp hcm with h1 | h2
    · rw [List.eq_of_mem_replicate h1]; decide
    · simp at h2; subst h2; decide
  have hnbS : ∀ c ∈ (List.replicate (15 - e.ip.length) ' ' ++ [' '] : List Char),
      pyIsLineBreak c = false := by
    intro c hcm
    rcases List.mem_append.mp hcm with h1 | h2
    · rw [List.eq_of_mem_replicate h1]; decide
    · simp at h2; subst h2; decide
  have hnbip : ∀ c ∈ e.ip.data, pyIsLineBreak c = false :=
    fun c hcm => not_lineBreak_of_not_space (hip2 c hcm).1
  have hnbjoin : ∀ c ∈ joinData (e.domains.map String.data),
      pyIsLineBreak c = false := by
    intro c hcm
    rcases joinData_mem _ c hcm with ⟨t, ht, hct⟩ | h1
    · exact not_lineBreak_of_not_space ((hdsd t ht).2 c hct).1
    · subst h1; decide
  rcases hc with hcm | ⟨c, hcm, hcd1, hcd2, hcd3, hcd4⟩
  · unfold parse_content
    rw [to_line_data_nocomment e hen hcm]
    rw [pySplitlines_single _ (by simp [hip1]) ?_]
    · rw [List.filterMap_cons]
      rw [parseLine_rendered_nocomment src e.ip.data _ _ hip1 hip2 hS1 hS2 hdsd1 hdsd]
      rw [List.filterMap_nil]
      rw [show String.mk e.ip.data = e.ip from rfl, map_mk_map_data, hcm]
    · intro x hx
      rcases List.mem_append.mp hx with h1 | h2
      · rcases List.mem_append.mp h1 with h3 | h4
        · exact hnbip x h3
        · exact hnbS x h4
      · exact hnbjoin x h2
  · have hcne : c ≠ "" := by
      intro h; subst h; exact hcd1 rfl
    match hcdd : c.data, hcd1 with
    | ca :: cd2, _ =>
    have hca : pyIsSpace ca = false := hcd2 ca (by rw [hcdd]; rfl)
    obtain ⟨cb, hcb1⟩ : ∃ cb, c.data.getLast? = some cb := by
      rw [hcdd]; exact ⟨_, List.getLast?_eq_getLast _ (by simp)⟩
    have hcb2 : pyIsSpace cb = false := hcd3 cb hcb1
    unfold parse_content
    rw [to_line_data_comment e c hen hcm hcne]
    rw [pySplitlines_single _ (by simp [hip1]) ?_]
    · rw [List.filterMap_cons]
      rw [parseLine_rendered_comment src e.ip.data _ _ c.data ca cb hip1 hip2
        hS1 hS2 hdsd1 hdsd (by rw [hcdd]; rfl) hca hcb1 hcb2]
      rw [List.filterMap_nil]
      rw [show String.mk e.ip.data = e.ip from rfl, map_mk_map_data,
        show String.mk c.data = c from rfl, hcm]
    · intro x hx
      rcases List.mem_append.mp hx with h1 | h2
      · rcases List.mem_append.mp h1 with h3 | h4
        · rcases List.mem_append.mp h3 with h5 | h6
          · rcases List.mem_append.mp h5 with h7 | h8
            · exact hnbip x h7
            · exact hnbS x h8
          · exact hnbjoin x h6
        · simp at h4; subst h4; decide
      · rcases List.mem_cons.mp h2 with h5 | h6
        · subst h5; decide
        · rcases List.mem_cons.mp h6 with h7 | h8
          · subst h7; decide
          · exact hcd4 x h8

/-! ### Parser shape lemmas -/

theorem parseLine_shape (src : String) (raw : List Char) (e : HostEntry)
    (h : parseLine src raw = some e) :
    e.enabled = true ∧ e.source = src ∧ e.ip ≠ "" ∧ e.domains ≠ [] := by
  unfold parseLine at h
  by_cases h1 : (pyStripList raw).isEmpty = true ∨ (pyStripList raw).head? = some '#'
  · rw [if_pos (by simpa using h1)] at h
    cases h
  · rw [if_neg (by simpa using h1)] at h
    by_cases h2 : (pyStripList (pySplitHash1 (pyStripList raw)).1).isEmpty = true
    · rw [if_pos h2] at h
      cases h
    · rw [if_neg h2] at h
      match htk : pySplitWs (pyStripList (pySplitHash1 (pyStripList raw)).1) with
      | [] => rw [htk] at h; cases h
      | [t] => rw [htk] at h; cases h
      | tok1 :: tok2 :: rest =>
        rw [htk] at h
        have htok1 : tok1 ≠ [] :=
          pySplitWsAux_tokens_ne_nil _ [] tok1 (htk ▸ List.mem_cons_self _ _)
        cases h
        refine ⟨rfl, rfl, ?_, by simp⟩
        intro hip
        exact htok1 (by simpa using congrArg String.data hip)

theorem parseLine_skip (src : String) (raw : List Char)
    (h : pyStripList raw = [] ∨ (pyStripList raw).head? = some '#' ∨
      pyStripList (pySplitHash1 (pyStripList raw)).1 = [] ∨
      (pySplitWs (pyStripList (pySplitHash1 (pyStripList raw)).1)).length < 2) :
    parseLine src raw = none := by
  unfold parseLine
  rcases h with h1 | h2 | h3 | h4
  · rw [if_pos (by simp [h1])]
  · rw [if_pos (by simp [h2])]
  · by_cases hb : (pyStripList raw).isEmpty = true ∨ (pyStripList raw).head? = some '#'
    · rw [if_pos (by simpa using hb)]
    · rw [if_neg (by simpa using hb)]
      rw [if_pos (by simp [h3])]
  · by_cases hb : (pyStripList raw).isEmpty = true ∨ (pyStripList raw).head? = some '#'
    · rw [if_pos (by simpa using hb)]
    · rw [if_neg (by simpa using hb)]
      by_cases h2 : (pyStripList (pySplitHash1 (pyStripList raw)).1).isEmpty = true
      · rw [if_pos h2]
      · rw [if_neg h2]
        match htk : pySplitWs (pyStripList (pySplitHash1 (pyStripList raw)).1) with
        | [] => rfl
        | [t] => rfl
        | tok1 :: tok2 :: rest =>
          rw [htk] at h4
          simp at h4
          omega

theorem parse_content_mem_shape (content src : String) (e : HostEntry)
    (h : e ∈ parse_content content src) :
    e.enabled = true ∧ e.source = src ∧ e.ip ≠ "" ∧ e.domains ≠ [] := by
  unfold parse_content at h
  rcases List.mem_filterMap.mp h with ⟨raw, _, hp⟩
  exact parseLine_shape src raw e hp

theorem parse_disabled_line (e : HostEntry) (src : String)
    (hen : e.enabled = false)
    (hnb1 : ∀ c ∈ e.ip.data, pyIsLineBreak c = false)
    (hnb2 : ∀ d ∈ e.domains, ∀ c ∈ d.data, pyIsLineBreak c = false) :
    parse_content e.to_line src = [] := by
  unfold parse_content
  rw [to_line_data_disabled e hen]
  rw [pySplitlines_single _ (by simp) ?_]
  · rw [List.filterMap_cons]
    obtain ⟨t2, ht2⟩ := pyStripList_head '#'
      (' ' :: (e.ip.data ++ [' '] ++ joinData (e.domains.map String.data)))
      (by decide)
    rw [parseLine_skip src _ (Or.inr (Or.inl (by rw [ht2]; rfl)))]
    rfl
  · intro x hx
    rcases List.mem_cons.mp hx with h1 | h2
    · subst h1; decide
    · rcases List.mem_cons.mp h2 with h3 | h4
      · subst h3; decide
      · rcases List.mem_append.mp h4 with h5 | h6
        · rcases List.mem_append.mp h5 with h7 | h8
          · exact hnb1 x h7
          · simp at h8; subst h8; decide
        · rcases joinData_mem _ x h6 with ⟨t, ht, hct⟩ | h9
          · rcases List.mem_map.mp ht with ⟨d, hd, rfl⟩
            exact hnb2 d hd x hct
          · subst h9; decide

/-! ### Merge dedup invariants -/

theorem filterDomains_kept (seen wl : List String) :
    ∀ ds, ∀ x ∈ (filterDomains seen wl ds).1, x ∈ ds ∧ x ∉ seen ∧ x ∉ wl := by
  intro ds
  induction ds with
  | nil => intro x hx; cases hx
  | cons d rest ih =>
    intro x hx
    rw [filterDomains] at hx
    by_cases h1 : d ∈ seen
    · rw [if_pos h1] at hx
      obtain ⟨h2, h3, h4⟩ := ih x hx
      exact ⟨by simp [h2], h3, h4⟩
    · rw [if_neg h1] at hx
      by_cases h2 : d ∈ wl
      · rw [if_pos h2] at hx
        obtain ⟨h3, h4, h5⟩ := ih x hx
        exact ⟨by simp [h3], h4, h5⟩
      · rw [if_neg h2] at hx
        rcases List.mem_cons.mp hx with h3 | h4
        · subst h3; exact ⟨by simp, h1, h2⟩
        · obtain ⟨h5, h6, h7⟩ := ih x h4
          exact ⟨by simp [h5], h6, h7⟩

theorem filterDomains_count (seen wl : List String) :
    ∀ ds, (filterDomains seen wl ds).2 =
      ds.countP fun d => decide (d ∉ seen ∧ d ∈ wl) := by
  intro ds
  induction ds with
  | nil => rfl
  | cons d rest ih =>
    rw [filterDomains, List.countP_cons]
    by_cases h1 : d ∈ seen
    · rw [if_pos h1, ih]
      simp [h1]
    · rw [if_neg h1]
      by_cases h2 : d ∈ wl
      · rw [if_pos h2]
        simp only [ih]
        simp [h1, h2]
      · rw [if_neg h2]
        simp only [ih]
        simp [h2]

theorem processEntries_seen_ext (wl : List String) :
    ∀ entries seen cnt, ∃ ext,
      (processEntries wl entries seen cnt).2.1 = seen ++ ext ∧
      ∀ x ∈ ext, x ∉ wl := by
  intro entries
  induction entries with
  | nil => intro seen cnt; exact ⟨[], by simp [processEntries], by simp⟩
  | cons e rest ih =>
    intro seen cnt
    rw [processEntries]
    by_cases h1 : (filterDomains seen wl e.domains).1.isEmpty = true
    · rw [if_pos h1]
      exact ih seen _
    · rw [if_neg h1]
      obtain ⟨ext, hext, hwl⟩ := ih (seen ++ (filterDomains seen wl e.domains).1)
        (cnt + (filterDomains seen wl e.domains).2)
      refine ⟨(filterDomains seen wl e.domains).1 ++ ext, ?_, ?_⟩
      · simp only [hext, List.append_assoc]
      · intro x hx
        rcases List.mem_append.mp hx with h2 | h3
        · exact (filterDomains_kept seen wl e.domains x h2).2.2
        · exact hwl x h3

theorem processEntries_emitted (wl : List String) :
    ∀ entries seen cnt, ∀ nd ∈ (processEntries wl entries seen cnt).1,
      ∀ x ∈ nd, x ∉ seen ∧ x ∉ wl := by
  intro entries
  induction entries with
  | nil => intro seen cnt nd hnd; cases hnd
  | cons e rest ih =>
    intro seen cnt nd hnd
    rw [processEntries] at hnd
    by_cases h1 : (filterDomains seen wl e.domains).1.isEmpty = true
    · rw [if_pos h1] at hnd
      exact ih seen _ nd hnd
    · rw [if_neg h1] at hnd
      rcases List.mem_cons.mp hnd with h2 | h3
      · subst h2
        intro x hx
        exact ⟨(filterDomains_kept seen wl e.domains x hx).2.1,
               (filterDomains_kept seen wl e.domains x hx).2.2⟩
      · intro x hx
        have h4 := ih (seen ++ (filterDomains seen wl e.domains).1) _ nd h3 x hx
        exact ⟨fun hm => h4.1 (List.mem_append.mpr (Or.inl hm)), h4.2⟩

theorem processEntries_count (wl : List String) (base : List String) :
    ∀ entries seen cnt, (∀ d ∈ wl, d ∈ seen ↔ d ∈ base) →
      (processEntries wl entries seen cnt).2.2 =
        cnt + ((entries.map fun e => e.domains).flatten).countP
          (fun d => decide (d ∉ base ∧ d ∈ wl)) := by
  intro entries
  induction entries with
  | nil => intro seen cnt _; simp [processEntries]
  | cons e rest ih =>
    intro seen cnt hstab
    have hcnt : (filterDomains seen wl e.domains).2 =
        e.domains.countP fun d => decide (d ∉ base ∧ d ∈ wl) := by
      rw [filterDomains_count]
      apply List.countP_congr
      intro d _
      by_cases h1 : d ∈ wl
      · simp [h1, hstab d h1]
      · simp [h1]
    have hstab2 : ∀ d ∈ wl,
        d ∈ seen ++ (filterDomains seen wl e.domains).1 ↔ d ∈ base := by
      intro d hd
      rw [List.mem_append]
      constructor
      · rintro (h2 | h3)
        · exact (hstab d hd).mp h2
        · exact absurd hd (filterDomains_kept seen wl e.domains d h3).2.2
      · intro h2
        exact Or.inl ((hstab d hd).mpr h2)
    rw [processEntries]
    by_cases h1 : (filterDomains seen wl e.domains).1.isEmpty = true
    · rw [if_pos h1, ih seen _ hstab]
      simp only [List.map_cons, List.flatten_cons, List.countP_append, hcnt]
      omega
    · rw [if_neg h1]
      simp only []
      rw [ih _ _ hstab2]
      simp only [List.map_cons, List.flatten_cons, List.countP_append, hcnt]
      omega

theorem processSources_emitted (m : HostsManager) :
    ∀ sel seen cnt, ∀ p ∈ (processSources m sel seen cnt).1,
      ∀ nd ∈ p.2, ∀ x ∈ nd, x ∉ seen ∧ x ∉ m.whitelist := by
  intro sel
  induction sel with
  | nil => intro seen cnt p hp; cases hp
  | cons src rest ih =>
    intro seen cnt p hp
    rw [processSources] at hp
    match hlk : m.lookupSource src with
    | none =>
      rw [hlk] at hp
      exact ih seen cnt p hp
    | some entries =>
      rw [hlk] at hp
      rcases List.mem_cons.mp hp with h1 | h2
      · subst h1
        intro nd hnd x hx
        exact processEntries_emitted m.whitelist entries seen cnt nd hnd x hx
      · intro nd hnd x hx
        obtain ⟨ext, hext, _⟩ := processEntries_seen_ext m.whitelist entries seen cnt
        have h3 := ih (processEntries m.whitelist entries seen cnt).2.1
          (processEntries m.whitelist entries seen cnt).2.2 p h2 nd hnd x hx
        rw [hext] at h3
        exact ⟨fun hm => h3.1 (List.mem_append.mpr (Or.inl hm)), h3.2⟩

/-- Occurrence list of the claims: every domain occurrence of every entry of
every selected source that is present in the source map, in order. -/
def selectedDomainOccurrences (m : HostsManager) (sel : List String) : List String :=
  (sel.map fun s =>
    match m.lookupSource s with
    | none => []
    | some es => (es.map fun e => e.domains).flatten).flatten

/-- Spec-side whitelist-skip count, following the claim text: the number of
(source, entry) occurrences of whitelisted domains across all selected
sources that would otherwise have been kept, i.e. that the seen-domain set
(which for a whitelisted domain can only ever contain it via the system
seed) would not already have dropped. -/
def wlSkipSpec (m : HostsManager) (sel : List String) : Nat :=
  (selectedDomainOccurrences m sel).countP
    fun d => decide (d ∉ m.systemDomains ∧ d ∈ m.whitelist)

theorem processSources_count (m : HostsManager) (base : List String) :
    ∀ sel seen cnt, (∀ d ∈ m.whitelist, d ∈ seen ↔ d ∈ base) →
      (processSources m sel seen cnt).2 =
        cnt + ((sel.map fun s =>
          match m.lookupSource s with
          | none => []
          | some es => (es.map fun e => e.domains).flatten).flatten).countP
            (fun d => decide (d ∉ base ∧ d ∈ m.whitelist)) := by
  intro sel
  induction sel with
  | nil => intro seen cnt _; simp [processSources]
  | cons src rest ih =>
    intro seen cnt hstab
    rw [processSources]
    match hlk : m.lookupSource src with
    | none =>
      rw [ih seen cnt hstab]
      simp [hlk]
    | some entries =>
      obtain ⟨ext, hext, hwl⟩ := processEntries_seen_ext m.whitelist entries seen cnt
      have hstab2 : ∀ d ∈ m.whitelist,
          d ∈ (processEntries m.whitelist entries seen cnt).2.1 ↔ d ∈ base := by
        intro d hd
        rw [hext, List.mem_append]
        constructor
        · rintro (h2 | h3)
          · exact (hstab d hd).mp h2
          · exact absurd hd (hwl d h3)
        · intro h2
          exact Or.inl ((hstab d hd).mpr h2)
      rw [ih _ _ hstab2]
      rw [processEntries_count m.whitelist base entries seen cnt hstab]
      simp only [List.map_cons, List.flatten_cons, List.countP_append, hlk]
      omega

/-- Claim C3: no whitelisted domain is ever emitted into the generated section,
and the whitelist-skip count produced by a merge call equals the number of
(source, entry) domain occurrences of whitelisted domains across the
selected sources that the seen-domain set would not already have dropped. -/
theorem whitelist_blocked_and_skip_count (m : HostsManager) (sel : List String) :
    (∀ d ∈ m.whitelist, d ∉ m.generatedDomains sel) ∧
    (m.merge_entries sel).1.last_whitelisted_count = some (wlSkipSpec m sel) := by
  constructor
  · intro d hd hmem
    unfold HostsManager.generatedDomains HostsManager.generatedBlocks at hmem
    rw [List.mem_flatten] at hmem
    obtain ⟨l, hl, hdl⟩ := hmem
    rw [List.mem_map] at hl
    obtain ⟨p, hp, rfl⟩ := hl
    rw [List.mem_flatten] at hdl
    obtain ⟨nd, hnd, hdnd⟩ := hdl
    exact (processSources_emitted m sel m.systemDomains 0 p hp nd hnd d hdnd).2 hd
  · show some (processSources m sel m.systemDomains 0).2 = _
    rw [processSources_count m m.systemDomains sel m.systemDomains 0
      (fun d _ => Iff.rfl)]
    rw [Nat.zero_add]
    rfl

/-- Claim C8: a domain occurring in any system entry never appears in the
generated blocklist section, for any selection and source map: the seen
set is seeded with all system domains before any source is processed. -/
theorem system_domains_never_generated (m : HostsManager) (sel : List String)
    (d : String) (hd : d ∈ m.systemDomains) : d ∉ m.generatedDomains sel := by
  intro hmem
  unfold HostsManager.generatedDomains HostsManager.generatedBlocks at hmem
  rw [List.mem_flatten] at hmem
  obtain ⟨l, hl, hdl⟩ := hmem
  rw [List.mem_map] at hl
  obtain ⟨p, hp, rfl⟩ := hl
  rw [List.mem_flatten] at hdl
  obtain ⟨nd, hnd, hdnd⟩ := hdl
  exact (processSources_emitted m sel m.systemDomains 0 p hp nd hnd d hdnd).1 hd

/-! ### Frame and congruence lemmas for the manager state -/

theorem processSources_congr (m m2 : HostsManager)
    (hr : m2.remote_entries = m.remote_entries)
    (hw : m2.whitelist = m.whitelist) :
    ∀ sel seen cnt, processSources m2 sel seen cnt = processSources m sel seen cnt := by
  intro sel
  induction sel with
  | nil => intro seen cnt; rfl
  | cons src rest ih =>
    intro seen cnt
    rw [processSources, processSources]
    have hlk : m2.lookupSource src = m.lookupSource src := by
      unfold HostsManager.lookupSource
      rw [hr]
    rw [hlk]
    cases m.lookupSource src with
    | none => exact ih seen cnt
    | some entries => simp only [hw, ih]

theorem previewSources_congr (m m2 : HostsManager)
    (hr : m2.remote_entries = m.remote_entries)
    (hw : m2.whitelist = m.whitelist) :
    ∀ sel seen blocked wlc,
      previewSources m2 sel seen blocked wlc = previewSources m sel seen blocked wlc := by
  intro sel
  induction sel with
  | nil => intro seen blocked wlc; rfl
  | cons src rest ih =>
    intro seen blocked wlc
    rw [previewSources, previewSources]
    have hlk : m2.lookupSource src = m.lookupSource src := by
      unfold HostsManager.lookupSource
      rw [hr]
    rw [hlk]
    cases m.lookupSource src with
    | none => exact ih _ _ _
    | some entries => simp only [hw, ih]

/-- A fresh manager, before any merge call: the whitelist-skip attribute is
absent. -/
def freshManager : HostsManager := {}

/-- Claim C4 counterexample: a merge call does not leave every field of the
manager unchanged — it creates/overwrites the last_whitelisted_count field,
so the state after the call differs from the state before it. -/
theorem merge_mutates_manager_state :
    (freshManager.merge_entries []).1 ≠ freshManager := by decide

/-- Claim C4 amended: the seen-domain set of merge and estimate is call-scoped and
the entry/source/whitelist/config state is untouched, but the whitelist-skip
counter of merge is delivered through the manager field
last_whitelisted_count (set on every call), not through the return value;
the field does not influence later calls: repeating the call on the
post-call state returns the same text and the same count, and preview_stats
of the post-call state is unchanged. -/
theorem merge_frame_and_repeatable (m : HostsManager) (sel : List String) :
    ((m.merge_entries sel).1 =
      { m with last_whitelisted_count := some ((processSources m sel m.systemDomains 0).2) }) ∧
    ((m.merge_entries sel).1.merge_entries sel).2 = (m.merge_entries sel).2 ∧
    ((m.merge_entries sel).1.merge_entries sel).1.last_whitelisted_count =
      (m.merge_entries sel).1.last_whitelisted_count ∧
    (m.merge_entries sel).1.preview_stats sel = m.preview_stats sel := by
  refine ⟨rfl, ?_, ?_, ?_⟩
  · show joinNl (mergeHeader _ ++ _) = joinNl (mergeHeader _ ++ _)
    rw [processSources_congr m (m.merge_entries sel).1 rfl rfl]
    rfl
  · show some (processSources _ sel _ 0).2 = some (processSources _ sel _ 0).2
    rw [processSources_congr m (m.merge_entries sel).1 rfl rfl]
    rfl
  · show HostsManager.preview_stats _ _ = _
    unfold HostsManager.preview_stats
    rw [previewSources_congr m (m.merge_entries sel).1 rfl rfl]
    rfl

/-- Claim C7: merging with an empty whitelist, empty selection and empty source
map reproduces the system entries rendered line by line, with no generated
block lines beyond the two header markers and the generator comment. -/
theorem merge_empty_selection (m : HostsManager)
    (_hwl : m.whitelist = []) (_hre : m.remote_entries = []) :
    (m.merge_entries []).2 =
      joinNl ("### SYSTEM ENTRIES (PRESERVED) ###" ::
        m.system_entries.map HostEntry.to_line ++
        ["", "### BLOCKLIST ENTRIES (GENERATED) ###", "# Generated by HostsFilter"]) := by
  show joinNl (mergeHeader m ++ (([] : List (String × List (List String))).map sourceSection).flatten) = _
  rw [mergeHeader]
  simp

/-- A manager whose single source holds one entry that lists the same
domain twice in its own domain list. -/
def dupManager : HostsManager :=
  { remote_entries := [("SourceA", [{ ip := "0.0.0.0", domains := ["d", "d"] }])] }

/-- Claim C1, code-bug failing input: merge_entries emits the domain d twice inside the
generated blocklist section — the seen-domain set is only updated after the
whole entry, so a domain repeated within one entry's domain list survives
twice, contradicting the at-most-once guarantee. -/
theorem merge_emits_duplicate_within_entry :
    dupManager.generatedDomains ["SourceA"] = ["d", "d"] ∧
    List.count "d" (dupManager.generatedDomains ["SourceA"]) = 2 ∧
    (dupManager.merge_entries ["SourceA"]).2 =
      "### SYSTEM ENTRIES (PRESERVED) ###\n\n### BLOCKLIST ENTRIES (GENERATED) ###\n# Generated by HostsFilter\n# Source: SourceA\n0.0.0.0         d d\n" := by
  refine ⟨rfl, rfl, ?_⟩
  decide

/-- Claim C2, code-bug failing input: on the same state and selection, preview_stats
reports 1 newly blocked domain while merge_entries generates 2 domain
occurrences (the same domain twice), because preview_stats adds each kept
domain to its seen set immediately while merge_entries defers the update to
the end of the entry; the whitelist-skip numbers do agree here. -/
theorem preview_merge_blocked_count_mismatch :
    (dupManager.preview_stats ["SourceA"]).new_blocked_domains = 1 ∧
    (dupManager.generatedDomains ["SourceA"]).length = 2 ∧
    (dupManager.preview_stats ["SourceA"]).whitelisted_skipped = 0 ∧
    (dupManager.merge_entries ["SourceA"]).1.last_whitelisted_count = some 0 := by
  refine ⟨rfl, rfl, rfl, rfl⟩

/-- Claim C6 counterexample: a line whose text after the first '#' trims to
empty parses to an entry whose comment is the empty string — present, not
absent. -/
theorem empty_comment_is_empty_string_not_absent :
    (parse_content "0.0.0.0 ads.example.com #" "S").map HostEntry.comment =
      [some ""] ∧ (some "" : Option String) ≠ none := by
  refine ⟨?_, by simp⟩
  decide

/-- Claim C6 amended: the parser splits on the first '#' occurrence, and whenever
the stripped line contains a '#', the trimmed right part always becomes the
entry's comment — even when it trims to the empty string, in which case the
entry carries an empty-string comment rather than no comment (rendering
treats the two identically, since only truthy comments are appended). -/
theorem comment_is_trimmed_right_of_first_hash :
    (∀ (src : String) (raw : List Char) (e : HostEntry),
      parseLine src raw = some e →
      e.comment = ((pySplitHash1 (pyStripList raw)).2).map
        fun r => String.mk (pyStripList r)) ∧
    (∀ l1 l2 : List Char, '#' ∉ l1 →
      pySplitHash1 (l1 ++ '#' :: l2) = (l1, some l2)) := by
  constructor
  · intro src raw e h
    unfold parseLine at h
    by_cases h1 : (pyStripList raw).isEmpty = true ∨ (pyStripList raw).head? = some '#'
    · rw [if_pos (by simpa using h1)] at h
      cases h
    · rw [if_neg (by simpa using h1)] at h
      by_cases h2 : (pyStripList (pySplitHash1 (pyStripList raw)).1).isEmpty = true
      · rw [if_pos h2] at h
        cases h
      · rw [if_neg h2] at h
        match htk : pySplitWs (pyStripList (pySplitHash1 (pyStripList raw)).1) with
        | [] => rw [htk] at h; cases h
        | [t] => rw [htk] at h; cases h
        | tok1 :: tok2 :: rest =>
          rw [htk] at h
          cases h
          rfl
  · exact pySplitHash1_found

/-- Claim C9: the parser is total and shape-safe: every produced entry has a
non-empty address and at least one domain, and every line that is empty
after trimming, begins with '#', has an empty data part, or tokenizes to
fewer than two whitespace-separated tokens is silently skipped. -/
theorem parse_shape_and_skip :
    (∀ (content src : String), ∀ e ∈ parse_content content src,
      e.ip ≠ "" ∧ e.domains ≠ []) ∧
    (∀ (src : String) (raw : List Char),
      (pyStripList raw = [] ∨ (pyStripList raw).head? = some '#' ∨
        pyStripList (pySplitHash1 (pyStripList raw)).1 = [] ∨
        (pySplitWs (pyStripList (pySplitHash1 (pyStripList raw)).1)).length < 2) →
      parseLine src raw = none) := by
  constructor
  · intro content src e he
    obtain ⟨_, _, h3, h4⟩ := parse_content_mem_shape content src e he
    exact ⟨h3, h4⟩
  · exact parseLine_skip

/-- Claim C10: the parser never produces a disabled entry — every parsed entry
has enabled = true — and consequently the rendered line of a disabled
entry (which begins with '#') parses back to the empty entry sequence, so
a disabled entry's domains are not recoverable by re-parsing. -/
theorem parse_enabled_only_disabled_unrecoverable :
    (∀ (content src : String), ∀ e ∈ parse_content content src,
      e.enabled = true) ∧
    (∀ (e : HostEntry) (src : String), e.enabled = false →
      (∀ c ∈ e.ip.data, pyIsLineBreak c = false) →
      (∀ d ∈ e.domains, ∀ c ∈ d.data, pyIsLineBreak c = false) →
      parse_content e.to_line src = []) := by
  constructor
  · intro content src e he
    exact (parse_content_mem_shape content src e he).1
  · exact parse_disabled_line

/-! ### Concrete example states and witnesses -/

/-- The worked example of the specification: one system entry, a whitelist
with one domain, one source with two entries. -/
def exampleManager : HostsManager :=
  { system_entries := [{ ip := "127.0.0.1", domains := ["localhost"] }],
    remote_entries := [("Src",
      [{ ip := "0.0.0.0", domains := ["ads.example.com"] },
       { ip := "0.0.0.0", domains := ["tracker.example.com", "localhost"] }])],
    whitelist := ["ads.example.com"] }

/-- A manager with only system entries, an empty whitelist and an empty
source map. -/
def sysOnlyManager : HostsManager :=
  { system_entries :=
      [{ ip := "127.0.0.1", domains := ["localhost"] },
       { ip := "::1", domains := ["ip6-localhost"], enabled := false }] }

theorem whitelist_blocked_and_skip_count_witness :
    ("ads.example.com" ∈ exampleManager.whitelist ∧
      "ads.example.com" ∉ exampleManager.generatedDomains ["Src"]) ∧
    (exampleManager.merge_entries ["Src"]).1.last_whitelisted_count =
      some (wlSkipSpec exampleManager ["Src"]) :=
  ⟨⟨by decide,
    (whitelist_blocked_and_skip_count exampleManager ["Src"]).1
      "ads.example.com" (by decide)⟩,
   (whitelist_blocked_and_skip_count exampleManager ["Src"]).2⟩

theorem system_domains_never_generated_witness :
    "localhost" ∈ exampleManager.systemDomains ∧
    "localhost" ∉ exampleManager.generatedDomains ["Src"] :=
  ⟨by decide,
   system_domains_never_generated exampleManager ["Src"] "localhost" (by decide)⟩

theorem merge_empty_selection_witness :
    (sysOnlyManager.whitelist = [] ∧ sysOnlyManager.remote_entries = []) ∧
    (sysOnlyManager.merge_entries []).2 =
      joinNl ("### SYSTEM ENTRIES (PRESERVED) ###" ::
        sysOnlyManager.system_entries.map HostEntry.to_line ++
        ["", "### BLOCKLIST ENTRIES (GENERATED) ###", "# Generated by HostsFilter"]) :=
  ⟨⟨rfl, rfl⟩, merge_empty_selection sysOnlyManager rfl rfl⟩

/-- A concrete enabled entry with a comment, for the round-trip witness. -/
def exampleEntry : HostEntry :=
  { ip := "192.168.0.1", domains := ["router.local", "gw"],
    comment := some "home gateway" }

theorem render_parse_round_trip_witness :
    (exampleEntry.enabled = true ∧
      (exampleEntry.ip.data ≠ [] ∧
        ∀ c ∈ exampleEntry.ip.data, pyIsSpace c = false ∧ c ≠ '#') ∧
      exampleEntry.domains ≠ [] ∧
      (∀ d ∈ exampleEntry.domains, d.data ≠ [] ∧
        ∀ c ∈ d.data, pyIsSpace c = false ∧ c ≠ '#')) ∧
    parse_content exampleEntry.to_line "Fetched" =
      [{ ip := "192.168.0.1", domains := ["router.local", "gw"],
         comment := some "home gateway", source := "Fetched", enabled := true }] :=
  ⟨⟨by decide, by decide, by decide, by decide⟩,
   render_parse_round_trip exampleEntry "Fetched" (by decide) (by decide)
     (by decide) (by decide)
     (Or.inr ⟨"home gateway", rfl, by decide, by decide, by decide, by decide⟩)⟩

theorem comment_is_trimmed_right_of_first_hash_witness :
    (parseLine "S" ("1.2.3.4 x # note".data) =
      some { ip := "1.2.3.4", domains := ["x"], comment := some "note",
             source := "S", enabled := true }) ∧
    (some "note" : Option String) =
      ((pySplitHash1 (pyStripList "1.2.3.4 x # note".data)).2).map
        (fun r => String.mk (pyStripList r)) ∧
    pySplitHash1 (['a', 'b'] ++ '#' :: ['c']) = (['a', 'b'], some ['c']) :=
  ⟨by decide,
   comment_is_trimmed_right_of_first_hash.1 "S" ("1.2.3.4 x # note".data)
     { ip := "1.2.3.4", domains := ["x"], comment := some "note",
       source := "S", enabled := true } (by decide),
   comment_is_trimmed_right_of_first_hash.2 ['a', 'b'] ['c'] (by decide)⟩

theorem parse_shape_and_skip_witness :
    ({ ip := "1.1.1.1", domains := ["foo.example"], comment := none,
       source := "S", enabled := true } ∈ parse_content "1.1.1.1 foo.example" "S" ∧
      ({ ip := "1.1.1.1", domains := ["foo.example"], comment := none,
         source := "S", enabled := true } : HostEntry).ip ≠ "" ∧
      ({ ip := "1.1.1.1", domains := ["foo.example"], comment := none,
         source := "S", enabled := true } : HostEntry).domains ≠ []) ∧
    parseLine "S" "lonelytoken".data = none :=
  ⟨⟨by decide,
    (parse_shape_and_skip.1 "1.1.1.1 foo.example" "S" _ (by decide)).1,
    (parse_shape_and_skip.1 "1.1.1.1 foo.example" "S" _ (by decide)).2⟩,
   parse_shape_and_skip.2 "S" ("lonelytoken".data)
     (Or.inr (Or.inr (Or.inr (by decide))))⟩

/-- A concrete disabled entry, for the C10 witness. -/
def disabledEntry : HostEntry :=
  { ip := "10.0.0.5", domains := ["blocked.example", "b2.example"],
    enabled := false }

theorem parse_enabled_only_disabled_unrecoverable_witness :
    ({ ip := "1.1.1.1", domains := ["foo.example"], comment := none,
       source := "T", enabled := true } ∈ parse_content "1.1.1.1 foo.example" "T" ∧
      ({ ip := "1.1.1.1", domains := ["foo.example"], comment := none,
         source := "T", enabled := true } : HostEntry).enabled = true) ∧
    (disabledEntry.enabled = false ∧
      parse_content disabledEntry.to_line "T" = []) :=
  ⟨⟨by decide,
    parse_enabled_only_disabled_unrecoverable.1 "1.1.1.1 foo.example" "T" _ (by decide)⟩,
   ⟨rfl,
    parse_enabled_only_disabled_unrecoverable.2 disabledEntry "T" rfl
      (by decide) (by decide)⟩⟩
